import Mathlib

/-!
# Verification of the stem-splitting preprocessing script

Shallow embedding of `src/preprocessing.py`.  The script walks a directory
tree of multi-stem audio files, decodes each track into stems (external
capability), slices every stem into fixed-length segments, computes an MFCC
matrix per segment (external capability) and saves one array file per
(stem, segment) pair.

The embedding keeps the source's names where possible.  Python's real
arithmetic on durations is modelled with exact rationals (`ℚ`); sample
counts and indices are natural numbers; a waveform is a `List α` whose
length is the sample count.  `stem[start:end]` is Python list slicing,
modelled by `pythonSlice` (drop/take, which clamp exactly as Python does).
-/

namespace StemSplit

/-- `sample_rate = 22050` from the script's module constants. -/
def sample_rate : ℕ := 22050

/-- `segment_length = 5` (seconds) from the script's module constants. -/
def segment_length : ℕ := 5

/-- `hop_length = 512` from the script's module constants. -/
def hop_length : ℕ := 512

/-- The segment window in samples, `sample_rate * segment_length` as it
appears in `start`/`end` of the segmentation loop. -/
def segment_samples : ℕ := sample_rate * segment_length

/-- `musdb_path = os.path.join('data', 'raw')`, as path components. -/
def musdb_path : List String := ["data", "raw"]

/-- `base_output_path = os.path.join('data', 'processed')`, as components. -/
def base_output_path : List String := ["data", "processed"]

/-- `total_duration = len(stem) / sample_rate;
process_duration = duration if duration is not None else total_duration`. -/
def process_duration (L : ℕ) (duration : Option ℚ) : ℚ :=
  match duration with
  | some d => d
  | none => (L : ℚ) / (sample_rate : ℚ)

/-- `num_segments = int(np.ceil(process_duration * sample_rate /
(sample_rate * segment_length)))`.  `int` of an integer-valued float is that
integer, so the value is the ceiling, as an integer. -/
def num_segments_z (L : ℕ) (duration : Option ℚ) : ℤ :=
  ⌈process_duration L duration * (sample_rate : ℚ) /
      ((sample_rate : ℚ) * (segment_length : ℚ))⌉

/-- The number of loop iterations `range(num_segments)` actually performs
(`range` of a non-positive integer is empty, hence `toNat`). -/
def num_segments (L : ℕ) (duration : Option ℚ) : ℕ :=
  (num_segments_z L duration).toNat

/-- `start = j * sample_rate * segment_length`. -/
def seg_start (j : ℕ) : ℕ := j * sample_rate * segment_length

/-- `end = min(start + sample_rate * segment_length, len(stem))`. -/
def seg_end (L : ℕ) (j : ℕ) : ℕ :=
  min (seg_start j + sample_rate * segment_length) L

/-- The half-open sample interval of segment `j` of a stem of length `L`. -/
def seg_range (L : ℕ) (j : ℕ) : ℕ × ℕ := (seg_start j, seg_end L j)

/-- Python list slicing `xs[s:e]` for natural indices: both bounds clamp to
the list length and an empty slice results when `e ≤ s`. -/
def pythonSlice {α : Type} (xs : List α) (s e : ℕ) : List α :=
  (xs.drop s).take (e - s)

/-- `segment = stem[start:end]` for iteration `j`. -/
def segment {α : Type} (stem : List α) (j : ℕ) : List α :=
  pythonSlice stem (seg_start j) (seg_end stem.length j)

/-- The ordered list of segments the loop `for j in range(num_segments)`
slices from one stem. -/
def segments {α : Type} (stem : List α) (duration : Option ℚ) : List (List α) :=
  (List.range (num_segments stem.length duration)).map (segment stem)

/-- The ordered list of sample ranges of those segments. -/
def seg_ranges (L : ℕ) (duration : Option ℚ) : List (ℕ × ℕ) :=
  (List.range (num_segments L duration)).map (seg_range L)

/-! ## Output file names

`feature_file = os.path.join(output_dir, f'{os.path.basename(track)}_stem{i}_segment{j}.npy')`.
A file name is a `List Char`; `{i}` renders a natural number in decimal,
most significant digit first, as Python's `str` does. -/

/-- `true` iff `c` is one of the characters a decimal rendering can emit. -/
def isDigitChar (c : Char) : Bool := 48 ≤ c.toNat && c.toNat ≤ 57

/-- The ten decimal digit characters. -/
def digitChars : List Char := ['0', '1', '2', '3', '4', '5', '6', '7', '8', '9']

/-- The character for one decimal digit. -/
def decChar (d : ℕ) : Char := digitChars.getD d '0'

/-- Decimal rendering with explicit fuel, so that it is structural. -/
def decDigitsCore : ℕ → ℕ → List Char
  | 0, _ => []
  | fuel + 1, n =>
    if n < 10 then [decChar n]
    else decDigitsCore fuel (n / 10) ++ [decChar (n % 10)]

/-- The decimal rendering of `n`, as Python's `str(n)` produces it. -/
def decDigits (n : ℕ) : List Char := decDigitsCore (n + 1) n

/-- The numeric value of a digit character. -/
def decCharVal (c : Char) : ℕ := c.toNat - 48

/-- `f'{basename}_stem{i}_segment{j}.npy'`. -/
def fileName (base : List Char) (i j : ℕ) : List Char :=
  base ++ "_stem".toList ++ decDigits i ++
    "_segment".toList ++ decDigits j ++ ".npy".toList

/-- The file names written for one stem of length `L`: one per iteration of
the segment loop. -/
def stem_paths (base : List Char) (i L : ℕ) (dur : Option ℚ) : List (List Char) :=
  (List.range (num_segments L dur)).map (fun j => fileName base i j)

/-- All `(directory, file name)` pairs `extract_and_preprocess` saves for one
track: stems in order (`for i in range(stems.shape[0])`), segments in order. -/
def track_outputs {α : Type} (base : List Char) (outDir : List String)
    (stems : List (List α)) (dur : Option ℚ) : List (List String × List Char) :=
  (stems.enum.map
    (fun p => (stem_paths base p.1 p.2.length dur).map (fun fn => (outDir, fn)))).flatten

/-! ## The directory walker

`main` iterates `os.walk(musdb_path)`; for each regular file it forms
`track_path = os.path.join(root, file)`,
`relative_path = os.path.relpath(root, musdb_path)` and
`output_dir = os.path.join(base_output_path, relative_path)`.
Paths are modelled as lists of components; a directory tree is a finite
tree of named subdirectories with a list of file names per directory.
`os.path.relpath(root, musdb_path)` for `root = musdb_path/rel` is the
component list `rel` (the script only ever walks below `musdb_path`). -/

/-- A directory: its regular file names and its named subdirectories. -/
inductive DirTree where
  | mk (files : List String) (subdirs : List (String × DirTree))

mutual

/-- `os.walk`: every directory of the tree, as its path relative to the
walked root paired with the file names it holds directly. -/
def walk : DirTree → List (List String × List String)
  | DirTree.mk files subdirs => ([], files) :: walkChildren subdirs

/-- The walk of a list of named subdirectories, prefixing each result with
the subdirectory name. -/
def walkChildren : List (String × DirTree) → List (List String × List String)
  | [] => []
  | (name, t) :: rest =>
    (walk t).map (fun rf => (name :: rf.1, rf.2)) ++ walkChildren rest

end

/-- `os.path.dirname` of a relative path given as components. -/
def dirname (p : List String) : List String := p.dropLast

/-- The output path the script computes for (track in mirrored directory
`rel`, stem `i`, segment `j`): the directory `base_output_path/rel` and the
encoded file name. -/
def out_path (rel : List String) (base : List Char) (i j : ℕ) :
    List String × List Char :=
  (base_output_path ++ rel, fileName base i j)

/-- One run of `main`: every `(directory, file name)` pair written, over all
directories the walk visits and all files in them.  `decode` stands for the
external stem decoder (`stempeg.read_stems`). -/
def run_walker {α : Type} (decode : List String → List (List α)) (dur : Option ℚ)
    (tree : DirTree) : List (List String × List Char) :=
  ((walk tree).map
    (fun rf => (rf.2.map (fun f =>
      track_outputs f.toList (base_output_path ++ rf.1)
        (decode (musdb_path ++ rf.1 ++ [f])) dur)).flatten)).flatten

/-! ## Failure model

The source has no `try`/`except`: `os.makedirs`, `stempeg.read_stems` and
the per-segment work (`librosa.feature.mfcc` + `np.save`) can each raise,
and a raised error simply aborts `extract_and_preprocess`.  Errors are
modelled as `Except ℕ` results of the external operations; the function
returns the files written before the first failure together with the error
that escaped, if any.  No operation ever removes a file. -/

/-- The nested stem/segment loops, flattened to the ordered list of save
operations: perform each save until one fails; return the files actually
written and the first error. -/
def write_loop (save : List String × List Char → Except ℕ Unit) :
    List (List String × List Char) → List (List String × List Char) × Option ℕ
  | [] => ([], none)
  | p :: rest =>
    match save p with
    | Except.error e => ([], some e)
    | Except.ok _ =>
      match write_loop save rest with
      | (ws, r) => (p :: ws, r)

/-- `extract_and_preprocess(track, output_dir, duration)`:
`os.makedirs` first, then `stempeg.read_stems`, then the loops.  Each
external outcome is passed in as a value. -/
def extract_and_preprocess {α : Type} (mkdirResult : Except ℕ Unit)
    (decodeResult : Except ℕ (List (List α)))
    (save : List String × List Char → Except ℕ Unit)
    (base : List Char) (outDir : List String) (dur : Option ℚ) :
    List (List String × List Char) × Option ℕ :=
  match mkdirResult with
  | Except.error e => ([], some e)
  | Except.ok _ =>
    match decodeResult with
    | Except.error e => ([], some e)
    | Except.ok stems => write_loop save (track_outputs base outDir stems dur)

/-! ## Arithmetic of the segment count -/

/-- Ceiling of a quotient of naturals, as natural division. -/
lemma ceil_natCast_div (L S : ℕ) (hS : 0 < S) :
    ⌈(L : ℚ) / (S : ℚ)⌉ = (((L + S - 1) / S : ℕ) : ℤ) := by
  have hS' : (0:ℚ) < (S:ℚ) := by exact_mod_cast hS
  set k := (L + S - 1) / S with hk
  have h1 : k * S ≤ L + S - 1 := Nat.div_mul_le_self _ _
  have h2 : L + S - 1 < k * S + S := by
    have := (Nat.div_lt_iff_lt_mul hS).mp (Nat.lt_succ_self ((L + S - 1) / S))
    rw [Nat.succ_mul] at this
    exact this
  have hLle : L ≤ k * S := by omega
  have hlt : k * S < L + S := by omega
  rw [Int.ceil_eq_iff]
  constructor
  · rw [lt_div_iff₀ hS']
    have : ((k:ℚ)) * S < L + S := by exact_mod_cast hlt
    push_cast
    linarith
  · rw [div_le_iff₀ hS']
    exact_mod_cast hLle

/-- With `duration=None` the ceiling argument simplifies to `L / segment_samples`:
the stem length divided by the window size. -/
lemma num_segments_z_none (L : ℕ) :
    num_segments_z L none = ⌈(L : ℚ) / (segment_samples : ℚ)⌉ := by
  unfold num_segments_z process_duration
  have h : (sample_rate : ℚ) ≠ 0 := by norm_num [sample_rate]
  rw [div_mul_cancel₀ _ h]
  norm_num [segment_samples, sample_rate, segment_length]

/-- The segment count for a full stem, as natural-number arithmetic. -/
lemma num_segments_none_eq (L : ℕ) :
    num_segments L none = (L + segment_samples - 1) / segment_samples := by
  unfold num_segments
  rw [num_segments_z_none, ceil_natCast_div L segment_samples (by norm_num [segment_samples, sample_rate, segment_length])]
  exact Int.toNat_natCast _

/-- With an explicit duration `d` the ceiling argument simplifies to
`d / segment_length`. -/
lemma num_segments_z_some (L : ℕ) (d : ℚ) :
    num_segments_z L (some d) = ⌈d / (segment_length : ℚ)⌉ := by
  unfold num_segments_z
  show ⌈d * (sample_rate : ℚ) / ((sample_rate : ℚ) * (segment_length : ℚ))⌉ = _
  congr 1
  have h1 : (sample_rate : ℚ) ≠ 0 := by norm_num [sample_rate]
  have h2 : (segment_length : ℚ) ≠ 0 := by norm_num [segment_length]
  field_simp
  ring

/-- `num_segments * segment_samples` covers the whole stem when no duration
limit is given. -/
lemma length_le_num_mul (L : ℕ) :
    L ≤ num_segments L none * segment_samples := by
  rw [num_segments_none_eq]
  have hS : 0 < segment_samples := by norm_num [segment_samples, sample_rate, segment_length]
  have h1 : (L + segment_samples - 1) / segment_samples * segment_samples ≤ L + segment_samples - 1 :=
    Nat.div_mul_le_self _ _
  have h2 : L + segment_samples - 1 < (L + segment_samples - 1) / segment_samples * segment_samples + segment_samples := by
    have := (Nat.div_lt_iff_lt_mul hS).mp (Nat.lt_succ_self ((L + segment_samples - 1) / segment_samples))
    rw [Nat.succ_mul] at this
    exact this
  omega

/-- `start = j * sample_rate * segment_length` is `j` windows. -/
lemma seg_start_eq (j : ℕ) : seg_start j = j * segment_samples := by
  unfold seg_start segment_samples
  rw [Nat.mul_assoc]

/-- `end = min((j+1) * segment_samples, L)`. -/
lemma seg_end_eq (L j : ℕ) : seg_end L j = min ((j + 1) * segment_samples) L := by
  unfold seg_end
  rw [seg_start_eq, Nat.succ_mul]
  rfl

/-- The slice the loop takes is the `j`-th window: drop `j` windows, take one. -/
lemma segment_eq_drop_take {α : Type} (stem : List α) (j : ℕ) :
    segment stem j = (stem.drop (j * segment_samples)).take segment_samples := by
  unfold segment pythonSlice
  rw [seg_start_eq, seg_end_eq]
  rw [List.take_eq_take]
  rw [List.length_drop]
  have : (j + 1) * segment_samples = j * segment_samples + segment_samples := by ring
  omega

lemma segment_samples_pos : 0 < segment_samples := by decide

/-- The loop count, cast to `ℤ`, is the ceiling of `L / segment_samples`
when no duration is given. -/
lemma num_segments_cast (L : ℕ) :
    ((num_segments L none : ℕ) : ℤ) = ⌈(L : ℚ) / (segment_samples : ℚ)⌉ := by
  unfold num_segments
  rw [num_segments_z_none]
  exact Int.toNat_of_nonneg
    (Int.ceil_nonneg (div_nonneg (Nat.cast_nonneg _) (Nat.cast_nonneg _)))

lemma segments_length {α : Type} (stem : List α) (dur : Option ℚ) :
    (segments stem dur).length = num_segments stem.length dur := by
  simp [segments]

lemma segments_get {α : Type} (stem : List α) (dur : Option ℚ) (j : ℕ)
    (h : j < (segments stem dur).length) :
    (segments stem dur).get ⟨j, h⟩ = segment stem j := by
  simp [segments, List.get_eq_getElem]

/-! ## C1: segment count -/

/-- C1 (amended).  With no duration limit the segment loop runs exactly
`⌈L / segment_samples⌉` times; a nonempty stem shorter than one segment
window yields exactly one segment, which is the whole stem (truncated to
its actual length).  (A zero-length stem yields 0 segments, see C10.) -/
theorem c1_segment_count {α : Type} (stem : List α) :
    ((segments stem none).length : ℤ) =
      ⌈(stem.length : ℚ) / (segment_samples : ℚ)⌉ ∧
    (0 < stem.length → stem.length < segment_samples →
      segments stem none = [stem]) := by
  constructor
  · rw [segments_length]
    exact num_segments_cast _
  · intro h0 h1
    have hS := segment_samples_pos
    have hnum : num_segments stem.length none = 1 := by
      rw [num_segments_none_eq]
      exact Nat.div_eq_of_lt_le (by omega) (by omega)
    have hseg : segment stem 0 = stem := by
      rw [segment_eq_drop_take]
      simp
      exact le_of_lt h1
    unfold segments
    rw [hnum, (by decide : List.range 1 = [0]), List.map_cons, List.map_nil, hseg]

/-- Witness for C1's boundary clause at the stem `[1, 2, 3]`. -/
theorem c1_witness : segments ([1, 2, 3] : List ℕ) none = [[1, 2, 3]] :=
  (c1_segment_count ([1, 2, 3] : List ℕ)).2 (by decide) (by decide)

/-- C1 as stated is false at a zero-length stem: the stem is shorter than
one segment window, yet the loop produces 0 segments, not 1. -/
theorem c1_counterexample :
    (([] : List ℕ)).length < segment_samples ∧
    segments ([] : List ℕ) none = [] ∧
    (segments ([] : List ℕ) none).length ≠ 1 := by
  have h : num_segments 0 none = 0 := by rw [num_segments_none_eq]; decide
  refine ⟨by decide, ?_, ?_⟩
  · simp [segments, h]
  · simp [segments, h]

/-! ## C2: segment sample ranges -/

/-- C2.  Segment `j` consists of the samples
`[j * segment_samples, min ((j+1) * segment_samples, L))` of the stem:
its length is `end - start`, its `k`-th sample is the stem's sample
`start + k`, and under no duration limit the final segment ends exactly at
the stem's last sample (truncated, never padded, never dropped). -/
theorem c2_segment_content {α : Type} (stem : List α) (dur : Option ℚ) (j : ℕ)
    (h : j < (segments stem dur).length) :
    ((segments stem dur).get ⟨j, h⟩).length =
      seg_end stem.length j - seg_start j ∧
    (∀ k, k < seg_end stem.length j - seg_start j →
      ((segments stem dur).get ⟨j, h⟩)[k]? = stem[seg_start j + k]?) ∧
    seg_range stem.length j =
      (j * segment_samples, min ((j + 1) * segment_samples) stem.length) ∧
    (dur = none → j + 1 = (segments stem dur).length →
      seg_end stem.length j = stem.length) := by
  have hget := segments_get stem dur j h
  have hse : seg_end stem.length j ≤ stem.length := by
    rw [seg_end_eq]
    exact min_le_right _ _
  refine ⟨?_, ?_, ?_, ?_⟩
  · rw [hget]
    unfold segment pythonSlice
    rw [List.length_take, List.length_drop]
    omega
  · intro k hk
    rw [hget]
    unfold segment pythonSlice
    rw [List.getElem?_take, if_pos hk, List.getElem?_drop]
  · simp [seg_range, seg_start_eq, seg_end_eq]
  · intro hd hlast
    subst hd
    rw [segments_length] at hlast
    have hcov := length_le_num_mul stem.length
    rw [← hlast] at hcov
    rw [seg_end_eq]
    exact min_eq_right hcov

/-- `[5, 7]` (length 2, shorter than one window) yields one segment. -/
lemma segments_two_length : 0 < (segments ([5, 7] : List ℕ) none).length := by
  rw [segments_length, num_segments_none_eq]
  decide

/-- Witness for C2 at stem `[5, 7]`, segment 0. -/
theorem c2_witness :
    ((segments ([5, 7] : List ℕ) none).get ⟨0, segments_two_length⟩).length =
      seg_end 2 0 - seg_start 0 :=
  (c2_segment_content ([5, 7] : List ℕ) none 0 segments_two_length).1

/-! ## C3: the max_duration scenario -/

lemma num_segments_scenario : num_segments 220500 (some (5 / 2)) = 1 := by
  unfold num_segments
  rw [num_segments_z_some]
  have h : ⌈(5 / 2 : ℚ) / (segment_length : ℚ)⌉ = 1 := by
    rw [Int.ceil_eq_iff]
    constructor
    · norm_num [segment_length]
    · norm_num [segment_length]
  rw [h]
  rfl

set_option maxRecDepth 4000 in
lemma seg_ranges_scenario :
    seg_ranges 220500 (some (5 / 2)) = [(0, 110250)] := by
  unfold seg_ranges
  rw [num_segments_scenario]
  decide

/-- C3 as stated is false: for duration 2.5 s at 22050 Hz, window 5 s, on a
220500-sample stem, the single segment's range is `[0, 110250)`, not the
claimed `[0, 55125)`. -/
theorem c3_counterexample :
    seg_ranges 220500 (some (5 / 2)) = [(0, 110250)] ∧
    seg_ranges 220500 (some (5 / 2)) ≠ [(0, 55125)] := by
  refine ⟨seg_ranges_scenario, ?_⟩
  rw [seg_ranges_scenario]
  decide

/-- C3 (amended).  Duration 2.5 s at 22050 Hz with a 5 s window on a 10 s
stem produces exactly 1 segment; the duration only lowers the segment
count, the slice bounds ignore it, so that segment is the full first
window `[0, 110250)`. -/
theorem c3_duration_scenario :
    num_segments 220500 (some (5 / 2)) = 1 ∧
    seg_ranges 220500 (some (5 / 2)) = [(0, 110250)] :=
  ⟨num_segments_scenario, seg_ranges_scenario⟩

/-! ## C4: concatenation reconstructs the stem -/

lemma flatten_windows {α : Type} (xs : List α) (k : ℕ) :
    ((List.range k).map
      (fun j => (xs.drop (j * segment_samples)).take segment_samples)).flatten
      = xs.take (k * segment_samples) := by
  induction k with
  | zero => simp
  | succ n ih =>
    rw [List.range_succ, List.map_append, List.flatten_append, ih]
    simp only [List.map_cons, List.map_nil, List.flatten_cons, List.flatten_nil,
      List.append_nil]
    rw [← List.take_add, Nat.succ_mul]

/-- C4.  With no duration limit, concatenating the segments in order
reconstructs the stem exactly: the sample ranges tile `[0, L)` with no gap
and no overlap. -/
theorem c4_concatenation {α : Type} (stem : List α) :
    (segments stem none).flatten = stem := by
  have hmap : segments stem none =
      (List.range (num_segments stem.length none)).map
        (fun j => (stem.drop (j * segment_samples)).take segment_samples) := by
    unfold segments
    exact List.map_congr_left (fun j _ => segment_eq_drop_take stem j)
  rw [hmap, flatten_windows, List.take_of_length_le (length_le_num_mul stem.length)]

/-! ## C8: every slice stays inside the stem -/

/-- C8.  For every duration argument and every produced segment, the end
index is clamped to the stem length and the slice is a contiguous
sub-list of the stem: no segment reads past the end of the stem. -/
theorem c8_segment_in_bounds {α : Type} (stem : List α) (dur : Option ℚ) (j : ℕ)
    (h : j < (segments stem dur).length) :
    seg_end stem.length j ≤ stem.length ∧
    List.IsInfix ((segments stem dur).get ⟨j, h⟩) stem := by
  constructor
  · rw [seg_end_eq]
    exact min_le_right _ _
  · rw [segments_get stem dur j h, segment_eq_drop_take]
    exact ⟨stem.take (j * segment_samples),
      (stem.drop (j * segment_samples)).drop segment_samples,
      by rw [List.append_assoc, List.take_append_drop, List.take_append_drop]⟩

/-- Witness for C8 at stem `[5, 7]`, duration `none`, segment 0. -/
theorem c8_witness :
    seg_end 2 0 ≤ 2 ∧
    List.IsInfix ((segments ([5, 7] : List ℕ) none).get ⟨0, segments_two_length⟩)
      [5, 7] :=
  c8_segment_in_bounds ([5, 7] : List ℕ) none 0 segments_two_length

/-! ## C9: the duration argument never changes a segment's content -/

/-- C9.  If segment `j` is produced both with duration `d` and with no
duration limit, its samples are identical in the two runs: the duration
influences only how many segments exist. -/
theorem c9_duration_content {α : Type} (stem : List α) (d : ℚ) (j : ℕ)
    (s1 s2 : List α)
    (h1 : (segments stem (some d))[j]? = some s1)
    (h2 : (segments stem none)[j]? = some s2) :
    s1 = s2 := by
  unfold segments at h1 h2
  rw [List.getElem?_map] at h1 h2
  rcases Option.map_eq_some'.mp h1 with ⟨a, ha, hfa⟩
  rcases Option.map_eq_some'.mp h2 with ⟨b, hb, hfb⟩
  have hja : j < num_segments stem.length (some d) := by
    by_contra hn
    rw [List.getElem?_eq_none (by simpa using Nat.le_of_not_lt hn)] at ha
    exact Option.noConfusion ha
  have hjb : j < num_segments stem.length none := by
    by_contra hn
    rw [List.getElem?_eq_none (by simpa using Nat.le_of_not_lt hn)] at hb
    exact Option.noConfusion hb
  rw [List.getElem?_range hja] at ha
  rw [List.getElem?_range hjb] at hb
  have ha' : a = j := by injection ha with h'; exact h'.symm
  have hb' : b = j := by injection hb with h'; exact h'.symm
  rw [← hfa, ← hfb, ha', hb']

lemma num_segments_two_some_one : num_segments 2 (some 1) = 1 := by
  unfold num_segments
  rw [num_segments_z_some]
  have h : ⌈(1 : ℚ) / (segment_length : ℚ)⌉ = 1 := by
    rw [Int.ceil_eq_iff]
    constructor
    · norm_num [segment_length]
    · norm_num [segment_length]
  rw [h]
  rfl

lemma segments_two_some_one : segments ([5, 7] : List ℕ) (some 1) = [[5, 7]] := by
  unfold segments
  show (List.range (num_segments 2 (some 1))).map _ = _
  rw [num_segments_two_some_one]
  decide

lemma segments_two_none : segments ([5, 7] : List ℕ) none = [[5, 7]] := by
  unfold segments
  show (List.range (num_segments 2 none)).map _ = _
  rw [num_segments_none_eq]
  decide

/-- Witness for C9: stem `[5, 7]` under duration 1 s and under no limit
both produce segment 0 with the same content. -/
theorem c9_witness :
    (segments ([5, 7] : List ℕ) (some 1))[0]? = some [5, 7] ∧
    (segments ([5, 7] : List ℕ) none)[0]? = some [5, 7] ∧
    ([5, 7] : List ℕ) = [5, 7] :=
  ⟨by rw [segments_two_some_one]; rfl, by rw [segments_two_none]; rfl,
    c9_duration_content ([5, 7] : List ℕ) 1 0 [5, 7] [5, 7]
      (by rw [segments_two_some_one]; rfl) (by rw [segments_two_none]; rfl)⟩

/-! ## C10: a zero-length stem -/

/-- C10.  A stem of length 0 processed with no duration limit yields 0
segments and no output file names for that stem. -/
theorem c10_empty_stem (base : List Char) (i : ℕ) :
    stem_paths base i 0 none = [] ∧ segments ([] : List ℚ) none = [] := by
  have h : num_segments 0 none = 0 := by rw [num_segments_none_eq]; decide
  constructor
  · unfold stem_paths
    rw [h]
    rfl
  · unfold segments
    show (List.range (num_segments 0 none)).map _ = _
    rw [h]
    rfl

/-! ## Decimal renderings: nonempty, all digits, injective -/

lemma decChar_isDigit (d : ℕ) : isDigitChar (decChar d) = true := by
  rcases Nat.lt_or_ge d 10 with h | h
  · interval_cases d <;> decide
  · unfold decChar
    rw [List.getD_eq_default _ _ (by simp [digitChars]; omega)]
    decide

lemma decChar_val (d : ℕ) (h : d < 10) : decCharVal (decChar d) = d := by
  interval_cases d <;> decide

lemma decDigitsCore_ne_nil (fuel n : ℕ) (h : n < fuel) :
    decDigitsCore fuel n ≠ [] := by
  cases fuel with
  | zero => omega
  | succ f =>
    unfold decDigitsCore
    by_cases h10 : n < 10
    · rw [if_pos h10]
      simp
    · rw [if_neg h10]
      simp

lemma decDigitsCore_digits (fuel : ℕ) :
    ∀ n, n < fuel → ∀ c ∈ decDigitsCore fuel n, isDigitChar c = true := by
  induction fuel with
  | zero => intro n h; omega
  | succ f ih =>
    intro n h c hc
    unfold decDigitsCore at hc
    by_cases h10 : n < 10
    · rw [if_pos h10] at hc
      rw [List.mem_singleton.mp hc]
      exact decChar_isDigit n
    · rw [if_neg h10] at hc
      have hdiv : n / 10 < f := by
        have := Nat.div_lt_self (show 0 < n by omega) (show 1 < 10 by omega)
        omega
      rcases List.mem_append.mp hc with h1 | h2
      · exact ih (n / 10) hdiv c h1
      · rw [List.mem_singleton.mp h2]
        exact decChar_isDigit (n % 10)

lemma decDigitsCore_foldl (fuel : ℕ) :
    ∀ n a, n < fuel →
      (decDigitsCore fuel n).foldl (fun x c => 10 * x + decCharVal c) a =
        a * 10 ^ (decDigitsCore fuel n).length + n := by
  induction fuel with
  | zero => intro n a h; omega
  | succ f ih =>
    intro n a h
    unfold decDigitsCore
    by_cases h10 : n < 10
    · rw [if_pos h10]
      simp only [List.foldl_cons, List.foldl_nil, List.length_cons,
        List.length_nil, pow_one, zero_add]
      rw [decChar_val n h10]
      omega
    · rw [if_neg h10]
      have hdiv : n / 10 < f := by
        have := Nat.div_lt_self (show 0 < n by omega) (show 1 < 10 by omega)
        omega
      rw [List.foldl_append, ih (n / 10) a hdiv]
      simp only [List.foldl_cons, List.foldl_nil, List.length_append,
        List.length_cons, List.length_nil, zero_add]
      rw [decChar_val (n % 10) (Nat.mod_lt n (by omega))]
      have hmod := Nat.div_add_mod n 10
      rw [pow_succ]
      set t := (10 : ℕ) ^ (decDigitsCore f (n / 10)).length with ht
      calc 10 * (a * t + n / 10) + n % 10
          = a * t * 10 + (10 * (n / 10) + n % 10) := by ring
        _ = a * (t * 10) + n := by rw [hmod]; ring

lemma decDigits_ne_nil (n : ℕ) : decDigits n ≠ [] :=
  decDigitsCore_ne_nil (n + 1) n (Nat.lt_succ_self n)

lemma decDigits_digits (n : ℕ) : ∀ c ∈ decDigits n, isDigitChar c = true :=
  decDigitsCore_digits (n + 1) n (Nat.lt_succ_self n)

lemma decDigits_val (n : ℕ) :
    (decDigits n).foldl (fun x c => 10 * x + decCharVal c) 0 = n := by
  have h := decDigitsCore_foldl (n + 1) n 0 (Nat.lt_succ_self n)
  simpa using h

lemma decDigits_injective : Function.Injective decDigits := by
  intro m n h
  have hm := decDigits_val m
  rw [h, decDigits_val n] at hm
  exact hm.symm

/-- If a string splits as digits-then-nondigit in two ways, the splits
agree: the digit prefix and the remainder are unique. -/
lemma digit_split_unique :
    ∀ (x1 x2 y1 y2 : List Char),
      (∀ c ∈ x1, isDigitChar c = true) → (∀ c ∈ x2, isDigitChar c = true) →
      (∀ c, y1.head? = some c → isDigitChar c = false) →
      (∀ c, y2.head? = some c → isDigitChar c = false) →
      x1 ++ y1 = x2 ++ y2 → x1 = x2 ∧ y1 = y2 := by
  intro x1
  induction x1 with
  | nil =>
    intro x2 y1 y2 hx1 hx2 hy1 hy2 heq
    cases x2 with
    | nil => exact ⟨rfl, heq⟩
    | cons c x2' =>
      exfalso
      have hc : isDigitChar c = true := hx2 c (List.mem_cons_self _ _)
      have heq' : y1 = c :: (x2' ++ y2) := by simpa using heq
      have hh : y1.head? = some c := by rw [heq']; rfl
      have := hy1 c hh
      simp [hc] at this
  | cons c1 x1' ih =>
    intro x2 y1 y2 hx1 hx2 hy1 hy2 heq
    cases x2 with
    | nil =>
      exfalso
      have hc : isDigitChar c1 = true := hx1 c1 (List.mem_cons_self _ _)
      have heq' : y2 = c1 :: (x1' ++ y1) := by simpa using heq.symm
      have hh : y2.head? = some c1 := by rw [heq']; rfl
      have := hy2 c1 hh
      simp [hc] at this
    | cons c2 x2' =>
      rw [List.cons_append, List.cons_append] at heq
      injection heq with hc12 heq'
      subst hc12
      have h := ih x2' y1 y2 (fun c hc => hx1 c (List.mem_cons_of_mem _ hc))
        (fun c hc => hx2 c (List.mem_cons_of_mem _ hc)) hy1 hy2 heq'
      exact ⟨by rw [h.1], h.2⟩

/-- Right-hand version: a digit suffix after a non-digit last character is
unique. -/
lemma digit_suffix_unique (a1 a2 d1 d2 : List Char)
    (hd1 : ∀ c ∈ d1, isDigitChar c = true)
    (hd2 : ∀ c ∈ d2, isDigitChar c = true)
    (ha1 : ∀ c, a1.getLast? = some c → isDigitChar c = false)
    (ha2 : ∀ c, a2.getLast? = some c → isDigitChar c = false)
    (heq : a1 ++ d1 = a2 ++ d2) : a1 = a2 ∧ d1 = d2 := by
  have hrev : d1.reverse ++ a1.reverse = d2.reverse ++ a2.reverse := by
    rw [← List.reverse_append, ← List.reverse_append, heq]
  have h := digit_split_unique d1.reverse d2.reverse a1.reverse a2.reverse
    (fun c hc => hd1 c (List.mem_reverse.mp hc))
    (fun c hc => hd2 c (List.mem_reverse.mp hc))
    (fun c hc => ha1 c (by rwa [List.head?_reverse] at hc))
    (fun c hc => ha2 c (by rwa [List.head?_reverse] at hc))
    hrev
  exact ⟨List.reverse_injective h.2, List.reverse_injective h.1⟩

lemma last_of_append_lit (x lit : List Char) (c' : Char)
    (hlit : lit.getLast? = some c') : (x ++ lit).getLast? = some c' := by
  rw [List.getLast?_append, hlit]
  rfl

/-- The encoded file name determines base name, stem index and segment
index: Python's decimal renderings contain no underscore, so the
`_stem{i}_segment{j}.npy` tail parses unambiguously from the right. -/
lemma fileName_injective (b1 b2 : List Char) (i1 i2 j1 j2 : ℕ)
    (h : fileName b1 i1 j1 = fileName b2 i2 j2) :
    b1 = b2 ∧ i1 = i2 ∧ j1 = j2 := by
  unfold fileName at h
  have h1 := List.append_cancel_right h
  have hstep1 := digit_suffix_unique
    (b1 ++ "_stem".toList ++ decDigits i1 ++ "_segment".toList)
    (b2 ++ "_stem".toList ++ decDigits i2 ++ "_segment".toList)
    (decDigits j1) (decDigits j2)
    (decDigits_digits j1) (decDigits_digits j2)
    (fun c hc => by
      rw [last_of_append_lit _ _ 't' (by decide)] at hc
      injection hc with h'
      rw [← h']
      decide)
    (fun c hc => by
      rw [last_of_append_lit _ _ 't' (by decide)] at hc
      injection hc with h'
      rw [← h']
      decide)
    h1
  have hj : j1 = j2 := decDigits_injective hstep1.2
  have h2 := List.append_cancel_right hstep1.1
  have hstep2 := digit_suffix_unique
    (b1 ++ "_stem".toList) (b2 ++ "_stem".toList)
    (decDigits i1) (decDigits i2)
    (decDigits_digits i1) (decDigits_digits i2)
    (fun c hc => by
      rw [last_of_append_lit _ _ 'm' (by decide)] at hc
      injection hc with h'
      rw [← h']
      decide)
    (fun c hc => by
      rw [last_of_append_lit _ _ 'm' (by decide)] at hc
      injection hc with h'
      rw [← h']
      decide)
    h2
  have hi : i1 = i2 := decDigits_injective hstep2.2
  exact ⟨List.append_cancel_right hstep2.1, hi, hj⟩

/-! ## C6: output paths are injective -/

/-- C6.  Each (track, stem index, segment index) triple determines one
output path (a function of the mirrored directory, the track basename and
the two indices), and distinct triples give distinct paths: the encoding
is injective. -/
theorem c6_path_injective (rel1 rel2 : List String) (b1 b2 : List Char)
    (i1 i2 j1 j2 : ℕ)
    (h : out_path rel1 b1 i1 j1 = out_path rel2 b2 i2 j2) :
    rel1 = rel2 ∧ b1 = b2 ∧ i1 = i2 ∧ j1 = j2 := by
  unfold out_path at h
  have h1 : base_output_path ++ rel1 = base_output_path ++ rel2 :=
    congrArg Prod.fst h
  have h2 : fileName b1 i1 j1 = fileName b2 i2 j2 := congrArg Prod.snd h
  have h3 := fileName_injective b1 b2 i1 i2 j1 j2 h2
  exact ⟨List.append_cancel_left h1, h3.1, h3.2.1, h3.2.2⟩

/-- Witness for C6 at a concrete path. -/
theorem c6_witness :
    (["x"] : List String) = ["x"] ∧
    "t.mp4".toList = "t.mp4".toList ∧
    (0 : ℕ) = 0 ∧ (1 : ℕ) = 1 :=
  c6_path_injective ["x"] ["x"] ("t.mp4".toList) ("t.mp4".toList)
    0 0 1 1 rfl

/-! ## C5: directory mirroring -/

lemma mem_run_walker {α : Type} (decode : List String → List (List α))
    (dur : Option ℚ) (tree : DirTree) (rel : List String) (files : List String)
    (f : String) (out : List String × List Char)
    (hmem : (rel, files) ∈ walk tree) (hf : f ∈ files)
    (hout : out ∈ track_outputs f.toList (base_output_path ++ rel)
      (decode (musdb_path ++ rel ++ [f])) dur) :
    out ∈ run_walker decode dur tree := by
  unfold run_walker
  rw [List.mem_flatten]
  refine ⟨_, List.mem_map_of_mem _ hmem, ?_⟩
  rw [List.mem_flatten]
  exact ⟨_, List.mem_map_of_mem _ hf, hout⟩

lemma track_outputs_dir {α : Type} (base : List Char) (outDir : List String)
    (stems : List (List α)) (dur : Option ℚ) (out : List String × List Char)
    (hout : out ∈ track_outputs base outDir stems dur) : out.1 = outDir := by
  unfold track_outputs at hout
  rw [List.mem_flatten] at hout
  obtain ⟨l, hl, hol⟩ := hout
  rw [List.mem_map] at hl
  obtain ⟨p, hp, rfl⟩ := hl
  rw [List.mem_map] at hol
  obtain ⟨fn, hfn, rfl⟩ := hol
  rfl

/-- C5.  Every output the run writes for the input file at relative path
`rel ++ [f]` is written, and written into
`base_output_path ++ dirname (rel ++ [f])`: the output tree mirrors the
input tree. -/
theorem c5_directory_mirroring {α : Type} (decode : List String → List (List α))
    (dur : Option ℚ) (tree : DirTree) (rel : List String) (files : List String)
    (f : String) (out : List String × List Char)
    (hmem : (rel, files) ∈ walk tree) (hf : f ∈ files)
    (hout : out ∈ track_outputs f.toList (base_output_path ++ rel)
      (decode (musdb_path ++ rel ++ [f])) dur) :
    out ∈ run_walker decode dur tree ∧
    out.1 = base_output_path ++ dirname (rel ++ [f]) := by
  constructor
  · exact mem_run_walker decode dur tree rel files f out hmem hf hout
  · rw [track_outputs_dir _ _ _ _ _ hout]
    unfold dirname
    rw [List.dropLast_concat]

lemma num_segments_one_none : num_segments 1 none = 1 := by
  rw [num_segments_none_eq]
  decide

lemma stem_paths_one (base : List Char) (i : ℕ) :
    stem_paths base i 1 none = [fileName base i 0] := by
  unfold stem_paths
  rw [num_segments_one_none, (by decide : List.range 1 = [0]),
    List.map_cons, List.map_nil]

lemma witness_track_outputs :
    track_outputs ("t.mp4".toList) base_output_path
      ([[0]] : List (List ℕ)) none
      = [(base_output_path, fileName ("t.mp4".toList) 0 0)] := by
  simp [track_outputs,
    (by decide : List.enum ([[0]] : List (List ℕ)) = [(0, [0])]),
    stem_paths_one]

/-- Witness for C5: a one-file tree, a one-stem decoder with a one-sample
stem. -/
theorem c5_witness :
    ((base_output_path, fileName ("t.mp4".toList) 0 0) :
        List String × List Char)
      ∈ run_walker (fun _ => ([[0]] : List (List ℕ))) none
        (DirTree.mk ["t.mp4"] []) ∧
    ((base_output_path, fileName ("t.mp4".toList) 0 0) :
        List String × List Char).1 =
      base_output_path ++ dirname ([] ++ ["t.mp4"]) :=
  c5_directory_mirroring (fun _ => [[0]]) none (DirTree.mk ["t.mp4"] [])
    [] ["t.mp4"] "t.mp4"
    (base_output_path, fileName ("t.mp4".toList) 0 0)
    (by simp [walk, walkChildren])
    (by decide)
    (by rw [List.append_nil, witness_track_outputs]
        exact List.mem_singleton.mpr rfl)

/-! ## C7: errors propagate uncaught, fail fast, no cleanup -/

lemma write_loop_all_ok (save : List String × List Char → Except ℕ Unit)
    (l : List (List String × List Char)) (h : ∀ p ∈ l, save p = Except.ok ()) :
    write_loop save l = (l, none) := by
  induction l with
  | nil => rfl
  | cons p rest ih =>
    have hp := h p (List.mem_cons_self _ _)
    have hr := ih (fun q hq => h q (List.mem_cons_of_mem _ hq))
    unfold write_loop
    rw [hp, hr]

lemma write_loop_fail (save : List String × List Char → Except ℕ Unit) :
    ∀ (l : List (List String × List Char)) (k : ℕ) (e : ℕ) (hk : k < l.length),
      (∀ p ∈ l.take k, save p = Except.ok ()) →
      save (l.get ⟨k, hk⟩) = Except.error e →
      write_loop save l = (l.take k, some e) := by
  intro l
  induction l with
  | nil =>
    intro k e hk
    exact absurd hk (Nat.not_lt_zero k)
  | cons p rest ih =>
    intro k e hk hok hfail
    cases k with
    | zero =>
      have hfail' : save p = Except.error e := hfail
      unfold write_loop
      rw [hfail']
      rfl
    | succ k' =>
      have hp : save p = Except.ok () :=
        hok p (List.mem_cons_self _ _)
      have hfail' : save (rest.get ⟨k', Nat.lt_of_succ_lt_succ hk⟩) =
          Except.error e := hfail
      have hrest := ih k' e (Nat.lt_of_succ_lt_succ hk)
        (fun q hq => hok q (List.mem_cons_of_mem _ hq)) hfail'
      unfold write_loop
      rw [hp, hrest]
      rfl

/-- C7.  A mkdir failure or a decode failure escapes with nothing written;
a failure at the `k`-th save escapes with exactly the first `k` files left
on disk (no cleanup) and everything after `k` — including all later stems
and segments of the track — abandoned.  No retry exists in any branch. -/
theorem c7_error_propagation {α : Type} (mkdirResult : Except ℕ Unit)
    (decodeResult : Except ℕ (List (List α)))
    (save : List String × List Char → Except ℕ Unit)
    (base : List Char) (outDir : List String) (dur : Option ℚ) :
    (∀ e, mkdirResult = Except.error e →
      extract_and_preprocess mkdirResult decodeResult save base outDir dur
        = ([], some e)) ∧
    (∀ e, mkdirResult = Except.ok () → decodeResult = Except.error e →
      extract_and_preprocess mkdirResult decodeResult save base outDir dur
        = ([], some e)) ∧
    (∀ stems k e (hk : k < (track_outputs base outDir stems dur).length),
      mkdirResult = Except.ok () → decodeResult = Except.ok stems →
      (∀ p ∈ (track_outputs base outDir stems dur).take k,
        save p = Except.ok ()) →
      save ((track_outputs base outDir stems dur).get ⟨k, hk⟩) =
        Except.error e →
      extract_and_preprocess mkdirResult decodeResult save base outDir dur
        = ((track_outputs base outDir stems dur).take k, some e)) := by
  refine ⟨?_, ?_, ?_⟩
  · intro e he
    subst he
    rfl
  · intro e hm hd
    subst hm
    subst hd
    rfl
  · intro stems k e hk hm hd hok hfail
    subst hm
    subst hd
    show write_loop save (track_outputs base outDir stems dur) = _
    exact write_loop_fail save (track_outputs base outDir stems dur) k e hk hok hfail

/-- Witness for C7: decode succeeds with one stem, the first save fails
with error 7; the run ends with no file written and error 7 escaping. -/
theorem c7_witness :
    extract_and_preprocess (Except.ok ()) (Except.ok ([[0]] : List (List ℕ)))
      (fun _ => Except.error 7) ("t.mp4".toList) base_output_path none
      = ([], some 7) :=
  (c7_error_propagation (Except.ok ()) (Except.ok ([[0]] : List (List ℕ)))
      (fun _ => Except.error 7) ("t.mp4".toList) base_output_path
      none).2.2
    [[0]] 0 7 (by rw [witness_track_outputs]; decide) rfl rfl
    (fun p hp => absurd hp (by simp)) rfl

end StemSplit
